import Mathlib

set_option maxHeartbeats 1000000

/-!
Shallow embedding of `src/src/lib.rs` (crate `u8ringbuffer`): a fixed-capacity
circular byte buffer `U8RingBuffer` with operations `new`, `capacity`, `len`,
`is_empty`, `clear`, `push`, `slice`, `occurence`, `first_occurence` and
`purge`.  Bytes are modelled as natural numbers, the two storage regions as
lists.  Fallible memory accesses (slice-index panics and raw-pointer reads or
writes outside the accessed region) are modelled by `Option`: `none` means the
Rust code panics or commits undefined behaviour at that point.
-/

/-- Models one `std::ptr::copy_nonoverlapping(&src[si], &mut dst[di], count)`
call together with the bounds obligations of the surrounding Rust code:
taking `&src[si]` or `&mut dst[di]` panics when the index is out of range, and
the copy reads `src[si..si+count]` and writes `dst[di..di+count]`; any
out-of-range access yields `none`.  On success the region
`dst[di..di+count]` is replaced by `src[si..si+count]`. -/
def copyN (src : List Nat) (si : Nat) (dst : List Nat) (di : Nat) (count : Nat) :
    Option (List Nat) :=
  if si < src.length ∧ di < dst.length ∧ si + count ≤ src.length ∧ di + count ≤ dst.length then
    some (dst.take di ++ (src.drop si).take count ++ dst.drop (di + count))
  else none

/-- The fields of `U8RingBuffer` from the source: `ring` is the circular
store, `buffer` the scratch region used by `slice`, `len` the number of valid
bytes and `pos` the cursor (next write position). -/
structure U8RingBuffer where
  ring : List Nat
  buffer : List Nat
  len : Nat
  pos : Nat
deriving DecidableEq

namespace U8RingBuffer

/-- `capacity()` returns the allocation size of the ring, which is its length. -/
def capacity (st : U8RingBuffer) : Nat := st.ring.length

/-- `last()` computes the index of the oldest valid byte (lib.rs lines 36-44).
The source computes `pos - len` in `isize`; here the negative case is written
with natural subtraction as `capacity + pos - len`. -/
def last (st : U8RingBuffer) : Nat :=
  if st.len = st.capacity then st.pos
  else if st.len ≤ st.pos then st.pos - st.len
  else st.capacity + st.pos - st.len

/-- `clear()` resets `len` and `pos`, leaving both storage regions as they are. -/
def clear (st : U8RingBuffer) : U8RingBuffer :=
  { st with len := 0, pos := 0 }

/-- `inc_pos_by(inc)` (lib.rs lines 148-155): advance the cursor modulo
capacity; while not yet full, grow `len` by `inc`, clamped to capacity. -/
def inc_pos_by (st : U8RingBuffer) (inc : Nat) : U8RingBuffer :=
  let capacity := st.capacity
  let pos := (st.pos + inc) % capacity
  if st.len ≥ capacity then { st with pos := pos }
  else { st with pos := pos, len := min (st.len + inc) capacity }

/-- `push(input)` (lib.rs lines 50-99).  The input is first truncated to its
last `capacity` bytes; an exactly-capacity input overwrites the whole ring in
one wrapped pass; otherwise the input is written at the cursor, with a wrapped
second copy whose source index is `input.len() - (capacity - pos) + 1` exactly
as in the source.  `none` models a panic or out-of-bounds access inside the
call. -/
def push (st : U8RingBuffer) (input : List Nat) : Option U8RingBuffer :=
  let capacity := st.capacity
  let buffer := if input.length > capacity then input.drop (input.length - capacity) else input
  let pos := st.pos
  if buffer.length = capacity then
    match copyN buffer 0 st.ring pos (capacity - pos) with
    | none => none
    | some ring1 =>
      if pos ≠ 0 then
        match copyN buffer (capacity - pos) ring1 0 pos with
        | none => none
        | some ring2 => some (inc_pos_by { st with ring := ring2 } capacity)
      else some (inc_pos_by { st with ring := ring1 } capacity)
  else if buffer.length > capacity - pos then
    match copyN buffer 0 st.ring pos (capacity - pos) with
    | none => none
    | some ring1 =>
      match copyN buffer (buffer.length - (capacity - pos) + 1) ring1 0
          (buffer.length - (capacity - pos)) with
      | none => none
      | some ring2 => some (inc_pos_by { st with ring := ring2 } buffer.length)
  else
    match copyN buffer 0 st.ring pos buffer.length with
    | none => none
    | some ring1 => some (inc_pos_by { st with ring := ring1 } buffer.length)

/-- `slice()` (lib.rs lines 101-146): linearize the window into the scratch
region and return the view together with the updated state (the source
mutates `self.buffer` and returns a borrow of it).  The three branches follow
the source's case split on `last` versus `pos`; the first two return
`&buffer[..len]`, the third returns `&buffer[..]`. -/
def slice (st : U8RingBuffer) : Option (List Nat × U8RingBuffer) :=
  let capacity := st.capacity
  let lst := st.last
  let len := st.len
  let pos := st.pos
  if lst < pos then
    match copyN st.ring lst st.buffer 0 st.len with
    | none => none
    | some buf1 => some (buf1.take len, { st with buffer := buf1 })
  else if lst > pos then
    match copyN st.ring pos st.buffer 0 (capacity - pos) with
    | none => none
    | some buf1 =>
      if lst ≠ capacity then
        match copyN st.ring 0 buf1 (capacity - lst) (capacity - lst) with
        | none => none
        | some buf2 => some (buf2.take len, { st with buffer := buf2 })
      else some (buf1.take len, { st with buffer := buf1 })
  else
    match copyN st.ring pos st.buffer 0 (capacity - pos) with
    | none => none
    | some buf1 =>
      if pos ≠ 0 then
        match copyN st.ring 0 buf1 (capacity - pos) pos with
        | none => none
        | some buf2 => some (buf2, { st with buffer := buf2 })
      else some (buf1, { st with buffer := buf1 })

/-- The `for idx in offset..offset+fuel` scan of `occurence`: return the first
index at which the pattern matches the window, trying `fuel` consecutive
candidate offsets starting at `idx`. -/
def scanFrom (s pat : List Nat) : Nat → Nat → Option Nat
  | _, 0 => none
  | idx, fuel + 1 =>
    if (s.drop idx).take pat.length = pat then some idx
    else scanFrom s pat (idx + 1) fuel

/-- `occurence(pattern, offset)` (lib.rs lines 157-168): linearize, return
`none` (inner) when `offset + pattern.len() > slice.len()`, otherwise scan
`for idx in offset..slen-blen`, i.e. `slen - blen - offset` candidates starting
at `offset`.  The outer `Option` models a failure inside `slice`. -/
def occurence (st : U8RingBuffer) (pat : List Nat) (offset : Nat) :
    Option (Option Nat × U8RingBuffer) :=
  match st.slice with
  | none => none
  | some (s, st1) =>
    let blen := pat.length
    let slen := s.length
    if offset + blen > slen then some (none, st1)
    else some (scanFrom s pat offset (slen - blen - offset), st1)

/-- `first_occurence(pattern)` (lib.rs lines 169-171). -/
def first_occurence (st : U8RingBuffer) (pat : List Nat) :
    Option (Option Nat × U8RingBuffer) :=
  occurence st pat 0

/-- `purge(amount)` (lib.rs lines 176-188). -/
def purge (st : U8RingBuffer) (amount : Nat) : Bool × U8RingBuffer :=
  if amount > st.len then (false, st)
  else if amount = st.len then (true, { st with len := 0, pos := 0 })
  else (true, { st with len := st.len - amount })

end U8RingBuffer

/-- Fold `push` over a sequence of inputs; `none` as soon as one push fails. -/
def pushAll : U8RingBuffer → List (List Nat) → Option U8RingBuffer
  | st, [] => some st
  | st, l :: L =>
    match st.push l with
    | none => none
    | some st1 => pushAll st1 L

/-- Total number of bytes in a sequence of push inputs. -/
def totalLen (L : List (List Nat)) : Nat := (L.map List.length).sum

/-- States reachable from `new(c)` (arbitrary initial storage contents of
length `c`, `len = 0`, `pos = 0`) by `push`, `purge`, `clear` and `slice`
calls that complete without a panic or out-of-bounds access. -/
inductive ReachableFrom (c : Nat) : U8RingBuffer → Prop where
  | init (ring buf : List Nat) (hr : ring.length = c) (hb : buf.length = c) :
      ReachableFrom c ⟨ring, buf, 0, 0⟩
  | push (st st1 : U8RingBuffer) (input : List Nat) (h : ReachableFrom c st)
      (hp : st.push input = some st1) : ReachableFrom c st1
  | purge (st : U8RingBuffer) (amount : Nat) (h : ReachableFrom c st) :
      ReachableFrom c (st.purge amount).2
  | clear (st : U8RingBuffer) (h : ReachableFrom c st) : ReachableFrom c st.clear
  | slice (st st1 : U8RingBuffer) (out : List Nat) (h : ReachableFrom c st)
      (hs : st.slice = some (out, st1)) : ReachableFrom c st1

open U8RingBuffer

/-- `copyN` preserves the length of the destination when it succeeds. -/
theorem copyN_length {src dst out : List Nat} {si di count : Nat}
    (h : copyN src si dst di count = some out) : out.length = dst.length := by
  unfold copyN at h
  split at h
  · rename_i hc
    injection h with h
    subst h
    simp only [List.length_append, List.length_take, List.length_drop]
    omega
  · exact absurd h (by simp)

/-- Claim C6: `purge(amount)` with `amount > len` returns `false` and leaves
the whole state (hence `len` and any subsequent `slice()`) unchanged. -/
theorem purge_too_much (st : U8RingBuffer) (amount : Nat) (h : st.len < amount) :
    st.purge amount = (false, st) ∧ (st.purge amount).2.len = st.len ∧
    (st.purge amount).2.slice = st.slice := by
  have hgt : amount > st.len := h
  unfold U8RingBuffer.purge
  rw [if_pos hgt]
  exact ⟨rfl, rfl, rfl⟩

theorem purge_too_much_witness :
    (U8RingBuffer.mk [1] [2] 0 0).len < 1 ∧
    U8RingBuffer.purge (U8RingBuffer.mk [1] [2] 0 0) 1 =
      (false, U8RingBuffer.mk [1] [2] 0 0) :=
  ⟨by decide, (purge_too_much (U8RingBuffer.mk [1] [2] 0 0) 1 (by decide)).1⟩

/-- Claim C1 (code bug): on a freshly constructed buffer (`len = 0`, here with
capacity 1) `slice()` lands in the `last == pos` branch and returns the whole
capacity-sized scratch region, a view of 1 byte instead of the empty view. -/
theorem slice_empty_buffer_eval :
    (U8RingBuffer.mk [7] [9] 0 0).len = 0 ∧
    U8RingBuffer.slice (U8RingBuffer.mk [7] [9] 0 0) =
      some ([7], U8RingBuffer.mk [7] [7] 0 0) ∧
    ([7] : List Nat).length ≠ 0 := by decide

/-- Claim C3 (code bug): fill a capacity-4 buffer (`push [1,2,3,4]`, then
`push [5,6,7]`, leaving the cursor at 3), then push 2 more bytes.  The second
wrapped copy in `push` takes its source at index
`input.len() - (capacity - pos) + 1 = 2` and reads 1 byte from there, i.e. it
needs `input[2]` of a 2-byte input: out of bounds, so the model yields `none`
where the claim demands the sliding-window result. -/
theorem push_wrap_off_by_one_eval :
    pushAll (U8RingBuffer.mk [0,0,0,0] [0,0,0,0] 0 0) [[1,2,3,4],[5,6,7]] =
      some (U8RingBuffer.mk [5,6,7,4] [0,0,0,0] 4 3) ∧
    U8RingBuffer.push (U8RingBuffer.mk [5,6,7,4] [0,0,0,0] 4 3) [8,9] = none := by decide

/-- Claim C4 (code bug): capacity 3, state reached by `push [1,2,3]` then
`push [4]` (ring `[4,2,3]`, `len = 3`, `pos = 1`, window `[2,3,4]`).  After
`purge 1` the claim demands `slice() = [3,4]`, but the `last > pos` branch of
`slice` copies from the cursor instead of the oldest byte and returns
`[2,4]`. -/
theorem purge_then_slice_eval :
    pushAll (U8RingBuffer.mk [0,0,0] [0,0,0] 0 0) [[1,2,3],[4]] =
      some (U8RingBuffer.mk [4,2,3] [0,0,0] 3 1) ∧
    U8RingBuffer.slice (U8RingBuffer.mk [4,2,3] [0,0,0] 3 1) =
      some ([2,3,4], U8RingBuffer.mk [4,2,3] [2,3,4] 3 1) ∧
    U8RingBuffer.purge (U8RingBuffer.mk [4,2,3] [0,0,0] 3 1) 1 =
      (true, U8RingBuffer.mk [4,2,3] [0,0,0] 2 1) ∧
    U8RingBuffer.slice (U8RingBuffer.mk [4,2,3] [0,0,0] 2 1) =
      some ([2,4], U8RingBuffer.mk [4,2,3] [2,4,0] 2 1) ∧
    ([2,4] : List Nat) ≠ List.drop 1 [2,3,4] := by decide

/-- Claim C5 (code bug): `push(&[])` on a fresh capacity-1 buffer evaluates
`&buffer[0]` on the empty input slice, which is out of bounds (a panic in
Rust); the model returns `none` where the claim demands unconditional
success. -/
theorem push_empty_input_eval :
    U8RingBuffer.push (U8RingBuffer.mk [0] [0] 0 0) [] = none := by decide

/-- Claim C2 (counterexample): for the empty sequence of pushes on a fresh
capacity-1 buffer, the claim demands `slice() = []` and `length() = 0`, but
`slice()` returns a 1-byte view. -/
theorem pushes_concat_counterexample :
    pushAll (U8RingBuffer.mk [7] [9] 0 0) [] = some (U8RingBuffer.mk [7] [9] 0 0) ∧
    U8RingBuffer.slice (U8RingBuffer.mk [7] [9] 0 0) =
      some ([7], U8RingBuffer.mk [7] [7] 0 0) ∧
    ([7] : List Nat) ≠ ([] : List (List Nat)).flatten := by decide

/-- Claim C8 (counterexample): with window `[5]` (capacity 1, one byte pushed)
the empty pattern is found at offset 0 — `first_occurence` returns `Some 0`,
not "not found" as the claim demands. -/
theorem occurence_empty_pattern_counterexample :
    U8RingBuffer.first_occurence (U8RingBuffer.mk [5] [9] 1 0) [] =
      some (some 0, U8RingBuffer.mk [5] [5] 1 0) := by decide

/-- If no candidate offset in the scanned range matches, the scan returns
`none`. -/
theorem scanFrom_none (s pat : List Nat) (fuel : Nat) :
    ∀ idx : Nat, (∀ j, idx ≤ j → j < idx + fuel → (s.drop j).take pat.length ≠ pat) →
    U8RingBuffer.scanFrom s pat idx fuel = none := by
  induction fuel with
  | zero => intro idx _; rfl
  | succ n ih =>
    intro idx h
    unfold U8RingBuffer.scanFrom
    rw [if_neg (h idx le_rfl (by omega))]
    exact ih (idx + 1) (fun j hj1 hj2 => h j (by omega) (by omega))

/-- Claim C7: for a non-empty pattern whose only occurrence in the linearized
window ends exactly at the window's final byte (it matches at offset
`|window| - |pattern|` and nowhere earlier), `first_occurence` returns "not
found": the scan's upper bound `slen - blen` excludes that final alignment. -/
theorem occurence_excludes_final_alignment (st : U8RingBuffer) (pat s : List Nat)
    (st1 : U8RingBuffer)
    (hs : st.slice = some (s, st1))
    (hpat : pat ≠ [])
    (hle : pat.length ≤ s.length)
    (hend : (s.drop (s.length - pat.length)).take pat.length = pat)
    (hnone : ∀ i < s.length - pat.length, (s.drop i).take pat.length ≠ pat) :
    st.first_occurence pat = some (none, st1) := by
  simp only [U8RingBuffer.first_occurence, U8RingBuffer.occurence, hs]
  rw [if_neg (by omega)]
  rw [scanFrom_none s pat _ 0 (fun j hj1 hj2 => hnone j (by omega))]

theorem occurence_excludes_final_alignment_witness :
    U8RingBuffer.slice (U8RingBuffer.mk [1,2] [0,0] 2 0) =
      some ([1,2], U8RingBuffer.mk [1,2] [1,2] 2 0) ∧
    U8RingBuffer.first_occurence (U8RingBuffer.mk [1,2] [0,0] 2 0) [2] =
      some (none, U8RingBuffer.mk [1,2] [1,2] 2 0) :=
  ⟨by decide,
    occurence_excludes_final_alignment (U8RingBuffer.mk [1,2] [0,0] 2 0) [2] [1,2]
      (U8RingBuffer.mk [1,2] [1,2] 2 0) (by decide) (by decide) (by decide)
      (by decide) (by decide)⟩

/-- Claim C8 (amended): a pattern longer than the linearized window is never
found; the empty pattern is found at offset 0 whenever the window is
non-empty, and is not found only when the window is empty too. -/
theorem occurence_degenerate_patterns (st : U8RingBuffer) (pat s : List Nat)
    (st1 : U8RingBuffer) (hs : st.slice = some (s, st1)) :
    (s.length < pat.length → st.first_occurence pat = some (none, st1)) ∧
    (pat = [] → s = [] → st.first_occurence pat = some (none, st1)) ∧
    (pat = [] → s ≠ [] → st.first_occurence pat = some (some 0, st1)) := by
  refine ⟨?_, ?_, ?_⟩
  · intro h
    simp only [U8RingBuffer.first_occurence, U8RingBuffer.occurence, hs]
    rw [if_pos (by omega)]
  · intro hp h0
    subst hp; subst h0
    simp only [U8RingBuffer.first_occurence, U8RingBuffer.occurence, hs]
    rw [if_neg (by simp)]
    rfl
  · intro hp hne
    subst hp
    simp only [U8RingBuffer.first_occurence, U8RingBuffer.occurence, hs]
    rw [if_neg (by simp)]
    cases s with
    | nil => exact absurd rfl hne
    | cons a t =>
      simp only [List.length_nil, List.length_cons, Nat.sub_zero]
      rfl

theorem occurence_degenerate_patterns_witness :
    U8RingBuffer.slice (U8RingBuffer.mk [5] [9] 1 0) =
      some ([5], U8RingBuffer.mk [5] [5] 1 0) ∧
    U8RingBuffer.first_occurence (U8RingBuffer.mk [5] [9] 1 0) [1,2] =
      some (none, U8RingBuffer.mk [5] [5] 1 0) :=
  ⟨by decide,
    (occurence_degenerate_patterns (U8RingBuffer.mk [5] [9] 1 0) [1,2] [5]
      (U8RingBuffer.mk [5] [5] 1 0) (by decide)).1 (by decide)⟩

/-- `inc_pos_by` keeps both storage regions, puts the cursor at
`(pos + inc) % capacity`, and never grows `len` beyond the capacity. -/
theorem inc_pos_by_inv (st : U8RingBuffer) (k : Nat) (hc : 0 < st.capacity)
    (hlen : st.len ≤ st.capacity) :
    (st.inc_pos_by k).ring = st.ring ∧ (st.inc_pos_by k).buffer = st.buffer ∧
    (st.inc_pos_by k).pos < st.capacity ∧ (st.inc_pos_by k).len ≤ st.capacity := by
  simp only [U8RingBuffer.inc_pos_by]
  split
  · exact ⟨rfl, rfl, Nat.mod_lt _ hc, hlen⟩
  · exact ⟨rfl, rfl, Nat.mod_lt _ hc, Nat.min_le_right _ _⟩

/-- Any successful leaf of `push` is `inc_pos_by` applied to the state with a
rewritten ring of unchanged length; the bounds follow. -/
theorem push_leaf_inv {st st1 : U8RingBuffer} {r : List Nat} {k : Nat}
    (hrl : r.length = st.ring.length) (hc : 0 < st.ring.length)
    (hlen : st.len ≤ st.ring.length)
    (h : U8RingBuffer.inc_pos_by { st with ring := r } k = st1) :
    st1.ring.length = st.ring.length ∧ st1.pos < st.ring.length ∧
      st1.len ≤ st.ring.length := by
  subst h
  have hcap : ({ st with ring := r } : U8RingBuffer).capacity = st.ring.length := by
    simp [U8RingBuffer.capacity, hrl]
  obtain ⟨h1, _, h3, h4⟩ :=
    inc_pos_by_inv { st with ring := r } k (by rw [hcap]; exact hc) (by rw [hcap]; exact hlen)
  refine ⟨?_, by rw [hcap] at h3; exact h3, by rw [hcap] at h4; exact h4⟩
  rw [h1]
  exact hrl

/-- A successful `push` preserves the ring's length and the two bounds of the
data-model invariant: cursor below capacity, `len` at most capacity. -/
theorem push_some_inv {st st1 : U8RingBuffer} {input : List Nat}
    (hp : st.push input = some st1) (hc : 0 < st.ring.length)
    (hlen : st.len ≤ st.ring.length) :
    st1.ring.length = st.ring.length ∧ st1.pos < st.ring.length ∧
      st1.len ≤ st.ring.length := by
  simp only [U8RingBuffer.push] at hp
  repeat' split at hp
  any_goals exact Option.noConfusion hp
  all_goals injection hp with h
  all_goals refine push_leaf_inv ?_ hc hlen h
  all_goals first
    | exact copyN_length (by assumption)
    | exact (copyN_length (by assumption)).trans (copyN_length (by assumption))

/-- `purge` keeps the storage regions, never moves the cursor forward and
never grows `len`. -/
theorem purge_inv (st : U8RingBuffer) (amount : Nat) :
    (st.purge amount).2.ring = st.ring ∧ (st.purge amount).2.buffer = st.buffer ∧
    (st.purge amount).2.pos ≤ st.pos ∧ (st.purge amount).2.len ≤ st.len := by
  unfold U8RingBuffer.purge
  split
  · exact ⟨rfl, rfl, le_rfl, le_rfl⟩
  split
  · exact ⟨rfl, rfl, Nat.zero_le _, Nat.zero_le _⟩
  · exact ⟨rfl, rfl, le_rfl, Nat.sub_le _ _⟩

/-- A successful `slice` only rewrites the scratch region: ring, `len` and
cursor are unchanged. -/
theorem slice_some_inv {st st1 : U8RingBuffer} {out : List Nat}
    (hs : st.slice = some (out, st1)) :
    st1.ring = st.ring ∧ st1.len = st.len ∧ st1.pos = st.pos := by
  simp only [U8RingBuffer.slice] at hs
  repeat' split at hs
  any_goals exact Option.noConfusion hs
  all_goals injection hs with h
  all_goals injection h with h1 h2
  all_goals subst h2
  all_goals exact ⟨rfl, rfl, rfl⟩

/-- Claim C10: in every state reachable from `new(capacity)` with positive
capacity by `push`, `purge`, `clear` and `slice` calls, the cursor lies in
`[0, capacity)` and `length()` never exceeds the capacity. -/
theorem reachable_cursor_len_bounds (c : Nat) (st : U8RingBuffer)
    (hc : 0 < c) (h : ReachableFrom c st) :
    st.pos < c ∧ st.len ≤ c := by
  have main : st.ring.length = c ∧ st.pos < c ∧ st.len ≤ c := by
    induction h with
    | init ring buf hr hb => exact ⟨hr, hc, Nat.zero_le c⟩
    | push st st1 input h hp ih =>
      obtain ⟨ihr, ihp, ihl⟩ := ih
      obtain ⟨h1, h2, h3⟩ := push_some_inv hp (by rw [ihr]; exact hc) (by rw [ihr]; exact ihl)
      exact ⟨by rw [h1, ihr], by rw [ihr] at h2; exact h2, by rw [ihr] at h3; exact h3⟩
    | purge st amount h ih =>
      obtain ⟨ihr, ihp, ihl⟩ := ih
      obtain ⟨h1, _, h3, h4⟩ := purge_inv st amount
      exact ⟨by rw [h1]; exact ihr, Nat.lt_of_le_of_lt h3 ihp, Nat.le_trans h4 ihl⟩
    | clear st h ih => exact ⟨ih.1, hc, Nat.zero_le c⟩
    | slice st st1 out h hs ih =>
      obtain ⟨ihr, ihp, ihl⟩ := ih
      obtain ⟨h1, h2, h3⟩ := slice_some_inv hs
      exact ⟨by rw [h1]; exact ihr, by rw [h3]; exact ihp, by rw [h2]; exact ihl⟩
  exact ⟨main.2.1, main.2.2⟩

theorem reachable_cursor_len_bounds_witness :
    (0:Nat) < 1 ∧ (U8RingBuffer.mk [0] [0] 0 0).pos < 1 ∧
      (U8RingBuffer.mk [0] [0] 0 0).len ≤ 1 :=
  ⟨by decide,
    (reachable_cursor_len_bounds 1 (U8RingBuffer.mk [0] [0] 0 0) (by decide)
      (ReachableFrom.init [0] [0] rfl rfl)).1,
    (reachable_cursor_len_bounds 1 (U8RingBuffer.mk [0] [0] 0 0) (by decide)
      (ReachableFrom.init [0] [0] rfl rfl)).2⟩

/-- `copyN` under its bounds conditions, as an unconditional rewrite. -/
theorem copyN_eq {src dst : List Nat} (si di count : Nat)
    (h1 : si < src.length) (h2 : di < dst.length) (h3 : si + count ≤ src.length)
    (h4 : di + count ≤ dst.length) :
    copyN src si dst di count =
      some (dst.take di ++ (src.drop si).take count ++ dst.drop (di + count)) := by
  unfold copyN
  rw [if_pos]
  exact ⟨h1, h2, h3, h4⟩

/-- Pushing an input of exactly capacity length succeeds from any in-bounds
state and rewrites the whole ring in one wrapped pass: the ring becomes the
input rotated so that the input byte at `capacity - pos` lands at ring index
0; the cursor is unchanged and the buffer is full afterwards. -/
theorem push_cap (ring buf input : List Nat) (len p : Nat)
    (hi : input.length = ring.length) (hp : p < ring.length) (hlen : len ≤ ring.length) :
    U8RingBuffer.push ⟨ring, buf, len, p⟩ input =
      some ⟨input.drop (ring.length - p) ++ input.take (ring.length - p), buf,
        ring.length, p⟩ := by
  have hc : 0 < ring.length := by omega
  simp only [U8RingBuffer.push, U8RingBuffer.capacity]
  rw [if_neg (by omega : ¬ input.length > ring.length)]
  rw [if_pos hi]
  split
  · rename_i heq
    rw [copyN_eq 0 p (ring.length - p) (by omega) hp (by omega) (by omega)] at heq
    exact Option.noConfusion heq
  · rename_i ring1 heq
    rw [copyN_eq 0 p (ring.length - p) (by omega) hp (by omega) (by omega)] at heq
    injection heq with heq
    subst heq
    simp only [List.drop_zero]
    rw [Nat.add_sub_cancel' (Nat.le_of_lt hp), List.drop_length]
    simp only [List.append_nil]
    by_cases hp0 : p = 0
    · subst hp0
      rw [if_neg (by simp : ¬ (0 : Nat) ≠ 0)]
      simp only [List.take_zero, Nat.sub_zero, List.nil_append]
      rw [List.take_of_length_le (by omega : input.length ≤ ring.length)]
      simp only [U8RingBuffer.inc_pos_by, U8RingBuffer.capacity]
      rw [hi]
      have hdrop : List.drop ring.length input = [] :=
        List.drop_eq_nil_of_le (by omega)
      split
      · rw [Option.some.injEq, U8RingBuffer.mk.injEq]
        exact ⟨by rw [hdrop, List.nil_append], rfl, by omega, by simp [Nat.mod_self]⟩
      · rw [Option.some.injEq, U8RingBuffer.mk.injEq]
        exact ⟨by rw [hdrop, List.nil_append], rfl, by omega, by simp [Nat.mod_self]⟩
    · rw [if_pos hp0]
      have hdst : (List.take p ring ++ List.take (ring.length - p) input).length =
          ring.length := by
        simp only [List.length_append, List.length_take]
        omega
      split
      · rename_i heq2
        rw [copyN_eq (ring.length - p) 0 p (by omega) (by omega) (by omega)
          (by omega)] at heq2
        exact Option.noConfusion heq2
      · rename_i ring2 heq2
        rw [copyN_eq (ring.length - p) 0 p (by omega) (by omega) (by omega)
          (by omega)] at heq2
        injection heq2 with heq2
        subst heq2
        simp only [List.take_zero, List.nil_append, Nat.zero_add]
        rw [List.drop_left' (by simp only [List.length_take]; omega :
          (List.take p ring).length = p)]
        rw [List.take_of_length_le (by simp only [List.length_drop]; omega :
          (List.drop (ring.length - p) input).length ≤ p)]
        simp only [U8RingBuffer.inc_pos_by, U8RingBuffer.capacity]
        have hL : (List.drop (ring.length - p) input ++
            List.take (ring.length - p) input).length = ring.length := by
          simp only [List.length_append, List.length_take, List.length_drop]
          omega
        rw [hL]
        split
        · rw [Option.some.injEq, U8RingBuffer.mk.injEq]
          exact ⟨rfl, rfl, by omega, by rw [Nat.add_mod_right, Nat.mod_eq_of_lt hp]⟩
        · rw [Option.some.injEq, U8RingBuffer.mk.injEq]
          exact ⟨rfl, rfl, by omega, by rw [Nat.add_mod_right, Nat.mod_eq_of_lt hp]⟩

/-- `push` first truncates an over-long input to its last `capacity` bytes:
pushing the original input and pushing the truncated tail are the same call. -/
theorem push_truncate (st : U8RingBuffer) (input : List Nat)
    (h : st.ring.length < input.length) :
    st.push input = st.push (input.drop (input.length - st.ring.length)) := by
  have hd : (input.drop (input.length - st.ring.length)).length = st.ring.length := by
    simp only [List.length_drop]; omega
  simp only [U8RingBuffer.push, U8RingBuffer.capacity]
  rw [if_pos (by omega : input.length > st.ring.length)]
  rw [if_neg (by omega :
    ¬ (input.drop (input.length - st.ring.length)).length > st.ring.length)]

/-- `slice` on a full buffer (`len = capacity`) takes the `last == pos` branch
and returns the ring rotated to start at the cursor. -/
theorem slice_full (ring buf : List Nat) (len p : Nat) (hlen : len = ring.length)
    (hbl : buf.length = ring.length) (hp : p < ring.length) :
    U8RingBuffer.slice ⟨ring, buf, len, p⟩ =
      some (ring.drop p ++ ring.take p, ⟨ring, ring.drop p ++ ring.take p, len, p⟩) := by
  subst hlen
  have hc : 0 < ring.length := by omega
  simp only [U8RingBuffer.slice, U8RingBuffer.capacity, U8RingBuffer.last, if_true]
  rw [if_neg (lt_irrefl p), if_neg (lt_irrefl p)]
  split
  · rename_i heq
    rw [copyN_eq p 0 (ring.length - p) hp (by omega) (by omega) (by omega)] at heq
    exact Option.noConfusion heq
  · rename_i buf1 heq
    rw [copyN_eq p 0 (ring.length - p) hp (by omega) (by omega) (by omega)] at heq
    injection heq with heq
    subst heq
    simp only [List.take_zero, List.nil_append, Nat.zero_add]
    rw [List.take_of_length_le (by simp only [List.length_drop]; omega :
      (ring.drop p).length ≤ ring.length - p)]
    by_cases hp0 : p = 0
    · subst hp0
      rw [if_neg (by simp : ¬ (0 : Nat) ≠ 0)]
      simp only [Nat.sub_zero, List.drop_zero, List.take_zero, List.append_nil]
      rw [List.drop_eq_nil_of_le (by omega : buf.length ≤ ring.length), List.append_nil]
    · rw [if_pos hp0]
      have hb1 : (ring.drop p ++ buf.drop (ring.length - p)).length = ring.length := by
        simp only [List.length_append, List.length_drop]; omega
      split
      · rename_i heq2
        rw [copyN_eq 0 (ring.length - p) p (by omega) (by omega) (by omega)
          (by omega)] at heq2
        exact Option.noConfusion heq2
      · rename_i buf2 heq2
        rw [copyN_eq 0 (ring.length - p) p (by omega) (by omega) (by omega)
          (by omega)] at heq2
        injection heq2 with heq2
        subst heq2
        simp only [List.drop_zero]
        rw [List.take_left' (by rw [List.length_drop] :
          (ring.drop p).length = ring.length - p)]
        rw [Nat.sub_add_cancel (Nat.le_of_lt hp)]
        rw [List.drop_eq_nil_of_le (by omega :
          (ring.drop p ++ buf.drop (ring.length - p)).length ≤ ring.length)]
        rw [List.append_nil]

/-- `slice` on a state with `pos = len` (as after pushes from a fresh state) takes the
`last < pos` branch and returns the first `len` ring bytes. -/
theorem slice_lt (ring buf : List Nat) (t : Nat) (hbl : buf.length = ring.length)
    (h0 : 0 < t) (hlt : t < ring.length) :
    U8RingBuffer.slice ⟨ring, buf, t, t⟩ =
      some (ring.take t, ⟨ring, ring.take t ++ buf.drop t, t, t⟩) := by
  simp only [U8RingBuffer.slice, U8RingBuffer.capacity, U8RingBuffer.last]
  rw [if_neg (by omega : ¬ t = ring.length)]
  rw [if_pos (le_refl t)]
  rw [if_pos (by omega : t - t < t)]
  split
  · rename_i heq
    rw [copyN_eq (t - t) 0 t (by omega) (by omega) (by omega) (by omega)] at heq
    exact Option.noConfusion heq
  · rename_i buf1 heq
    rw [copyN_eq (t - t) 0 t (by omega) (by omega) (by omega) (by omega)] at heq
    injection heq with heq
    subst heq
    simp only [Nat.sub_self, List.drop_zero, List.take_zero, List.nil_append,
      Nat.zero_add]
    rw [List.take_left' (by simp only [List.length_take]; try omega :
      (ring.take t).length = t)]

/-- Claim C9: a single push strictly longer than the capacity succeeds from
any in-bounds state, leaves `length()` equal to the capacity, and afterwards
`slice()` is exactly the last `capacity` bytes of that input. -/
theorem push_overflow_keeps_tail (st : U8RingBuffer) (input : List Nat)
    (hp : st.pos < st.ring.length) (hlen : st.len ≤ st.ring.length)
    (hbuf : st.buffer.length = st.ring.length)
    (hin : st.ring.length < input.length) :
    ∃ st1, st.push input = some st1 ∧ st1.len = st.ring.length ∧
      (st1.slice).map Prod.fst =
        some (input.drop (input.length - st.ring.length)) := by
  obtain ⟨ring, buf, len, p⟩ := st
  replace hp : p < ring.length := hp
  replace hlen : len ≤ ring.length := hlen
  replace hbuf : buf.length = ring.length := hbuf
  replace hin : ring.length < input.length := hin
  show ∃ st1, U8RingBuffer.push ⟨ring, buf, len, p⟩ input = some st1 ∧
    st1.len = ring.length ∧
    (st1.slice).map Prod.fst = some (input.drop (input.length - ring.length))
  have hT : (input.drop (input.length - ring.length)).length = ring.length := by
    simp only [List.length_drop]; omega
  rw [push_truncate _ _ hin]
  rw [push_cap ring buf (input.drop (input.length - ring.length)) len p hT hp hlen]
  refine ⟨_, rfl, rfl, ?_⟩
  have hr1 : ((input.drop (input.length - ring.length)).drop (ring.length - p)).length
      = p := by
    simp only [List.length_drop]; omega
  have hr : ((input.drop (input.length - ring.length)).drop (ring.length - p) ++
      (input.drop (input.length - ring.length)).take (ring.length - p)).length =
      ring.length := by
    simp only [List.length_append, List.length_take, List.length_drop]; omega
  rw [slice_full _ buf ring.length p hr.symm (hbuf.trans hr.symm) (by omega)]
  have hA : (((input.drop (input.length - ring.length)).drop (ring.length - p) ++
      (input.drop (input.length - ring.length)).take (ring.length - p)).drop p) ++
      (((input.drop (input.length - ring.length)).drop (ring.length - p) ++
      (input.drop (input.length - ring.length)).take (ring.length - p)).take p) =
      input.drop (input.length - ring.length) := by
    rw [List.drop_left' hr1, List.take_left' hr1]
    exact List.take_append_drop _ _
  rw [hA]
  rfl

theorem push_overflow_keeps_tail_witness :
    (U8RingBuffer.mk [1,2] [0,0] 1 1).pos < 2 ∧
    (U8RingBuffer.mk [1,2] [0,0] 1 1).len ≤ 2 ∧
    (∃ st1, (U8RingBuffer.mk [1,2] [0,0] 1 1).push [3,4,5] = some st1 ∧
      st1.len = 2 ∧ (st1.slice).map Prod.fst = some [4,5]) :=
  ⟨by decide, by decide,
    push_overflow_keeps_tail (U8RingBuffer.mk [1,2] [0,0] 1 1) [3,4,5]
      (by decide) (by decide) (by decide) (by decide)⟩

/-- One `push` whose (non-empty) input fits between the cursor and the
capacity, from a state with `pos = len = t`: the bytes land at `ring[t..t+b]`,
cursor and `len` advance by `b`. Covers both the exactly-capacity pass
(`t = 0`, `b = capacity`) and the contiguous third branch. -/
theorem push_step (ring buf l : List Nat) (t : Nat)
    (hl : l ≠ []) (hba : t + l.length ≤ ring.length) :
    U8RingBuffer.push ⟨ring, buf, t, t⟩ l =
      some ⟨ring.take t ++ l ++ ring.drop (t + l.length), buf, t + l.length,
        (t + l.length) % ring.length⟩ := by
  have hl0 : 0 < l.length := List.length_pos.2 hl
  have ht : t < ring.length := by omega
  simp only [U8RingBuffer.push, U8RingBuffer.capacity]
  rw [if_neg (by omega : ¬ l.length > ring.length)]
  by_cases hb : l.length = ring.length
  · have ht0 : t = 0 := by omega
    subst ht0
    rw [if_pos hb]
    split
    · rename_i heq
      rw [copyN_eq 0 0 (ring.length - 0) (by omega) (by omega) (by omega)
        (by omega)] at heq
      exact Option.noConfusion heq
    · rename_i ring1 heq
      rw [copyN_eq 0 0 (ring.length - 0) (by omega) (by omega) (by omega)
        (by omega)] at heq
      injection heq with heq
      subst heq
      rw [if_neg (by simp : ¬ (0 : Nat) ≠ 0)]
      simp only [List.take_zero, List.drop_zero, Nat.sub_zero, Nat.zero_add,
        List.nil_append]
      rw [List.take_of_length_le (by omega : l.length ≤ ring.length)]
      rw [List.drop_length, List.append_nil]
      simp only [U8RingBuffer.inc_pos_by, U8RingBuffer.capacity]
      rw [if_neg (by omega : ¬ 0 ≥ l.length)]
      rw [Option.some.injEq, U8RingBuffer.mk.injEq]
      refine ⟨?_, rfl, by omega, by rw [hb, Nat.zero_add]⟩
      rw [hb, List.drop_eq_nil_of_le (le_refl ring.length), List.append_nil]
  · rw [if_neg hb]
    rw [if_neg (by omega : ¬ l.length > ring.length - t)]
    split
    · rename_i heq
      rw [copyN_eq 0 t l.length (by omega) (by omega) (by omega) (by omega)] at heq
      exact Option.noConfusion heq
    · rename_i ring1 heq
      rw [copyN_eq 0 t l.length (by omega) (by omega) (by omega) (by omega)] at heq
      injection heq with heq
      subst heq
      simp only [List.drop_zero]
      rw [List.take_length]
      simp only [U8RingBuffer.inc_pos_by, U8RingBuffer.capacity]
      have h1 : (ring.take t ++ l ++ ring.drop (t + l.length)).length = ring.length := by
        simp only [List.length_append, List.length_take, List.length_drop]
        omega
      rw [h1]
      rw [if_neg (by omega : ¬ t ≥ ring.length)]
      rw [Option.some.injEq, U8RingBuffer.mk.injEq]
      exact ⟨rfl, rfl, by omega, rfl⟩

/-- Folding `push` over a nonempty-input sequence that fits after index `t`:
the bytes land contiguously at `ring[t ..]` and `len`, `pos` advance by the
total length. -/
theorem pushAll_spec (L : List (List Nat)) : ∀ (ring buf : List Nat) (t : Nat),
    (∀ l ∈ L, l ≠ []) → t + totalLen L ≤ ring.length → t < ring.length →
    pushAll ⟨ring, buf, t, t⟩ L =
      some ⟨ring.take t ++ L.flatten ++ ring.drop (t + totalLen L), buf,
        t + totalLen L, (t + totalLen L) % ring.length⟩ := by
  induction L with
  | nil =>
    intro ring buf t hall htot ht
    simp only [pushAll, totalLen, List.flatten_nil, List.map_nil, List.sum_nil,
      Nat.add_zero, List.append_nil]
    rw [List.take_append_drop]
    rw [Nat.mod_eq_of_lt ht]
  | cons l L ih =>
    intro ring buf t hall htot ht
    have hl : l ≠ [] := hall l (List.mem_cons_self l L)
    have hl0 : 0 < l.length := List.length_pos.2 hl
    have htl : totalLen (l :: L) = l.length + totalLen L := by
      simp [totalLen]
    rw [htl] at htot
    have hstep : pushAll ⟨ring, buf, t, t⟩ (l :: L) =
        pushAll ⟨ring.take t ++ l ++ ring.drop (t + l.length), buf, t + l.length,
          (t + l.length) % ring.length⟩ L := by
      simp only [pushAll]
      rw [push_step ring buf l t hl (by omega)]
    rw [hstep]
    have hAl : (ring.take t ++ l).length = t + l.length := by
      simp only [List.length_append, List.length_take]
      omega
    have hr1 : (ring.take t ++ l ++ ring.drop (t + l.length)).length = ring.length := by
      simp only [List.length_append, List.length_take, List.length_drop]
      omega
    by_cases hL : L = []
    · subst hL
      simp only [pushAll]
      have h1 : totalLen [l] = l.length := by simp [totalLen]
      have h2 : ([l] : List (List Nat)).flatten = l := by simp
      rw [h1, h2]
    · have hLt : 0 < totalLen L := by
        obtain ⟨x, hx⟩ := List.exists_mem_of_ne_nil L hL
        have hx1 : 0 < x.length := List.length_pos.2 (hall x (List.mem_cons_of_mem _ hx))
        have hx2 : x.length ≤ totalLen L :=
          List.single_le_sum (fun y _ => Nat.zero_le y) _ (List.mem_map_of_mem _ hx)
        omega
      rw [Nat.mod_eq_of_lt (by omega : t + l.length < ring.length)]
      rw [ih (ring.take t ++ l ++ ring.drop (t + l.length)) buf (t + l.length)
        (fun x hx => hall x (List.mem_cons_of_mem _ hx))
        (by rw [hr1]; omega) (by rw [hr1]; omega)]
      rw [Option.some.injEq, U8RingBuffer.mk.injEq]
      have htake : (ring.take t ++ l ++ ring.drop (t + l.length)).take (t + l.length) =
          ring.take t ++ l := List.take_left' hAl
      have hdrop : (ring.take t ++ l ++ ring.drop (t + l.length)).drop
          (t + l.length + totalLen L) = ring.drop (t + l.length + totalLen L) := by
        have e1 : t + l.length + totalLen L = (ring.take t ++ l).length + totalLen L := by
          rw [hAl]
        rw [e1, List.drop_append, List.drop_drop]
        all_goals congr 1
        all_goals omega
      refine ⟨?_, rfl, by omega, ?_⟩
      · rw [htake, hdrop, htl, List.flatten_cons]
        simp only [List.append_assoc, Nat.add_assoc]
      · rw [hr1, htl]
        congr 1
        omega

/-- Claim C2 (amended): starting from a fresh buffer, for every nonempty
sequence of non-empty pushes of total length at most the capacity, all pushes
succeed, `length()` equals the total number of bytes pushed, and `slice()` is
the concatenation of the pushed inputs in push order. -/
theorem pushes_concat (ring buf : List Nat) (L : List (List Nat))
    (hbuf : buf.length = ring.length) (hne : L ≠ [])
    (hall : ∀ l ∈ L, l ≠ []) (htot : totalLen L ≤ ring.length) :
    ∃ st1, pushAll ⟨ring, buf, 0, 0⟩ L = some st1 ∧ st1.len = totalLen L ∧
      (st1.slice).map Prod.fst = some L.flatten := by
  have h0 : 0 < totalLen L := by
    obtain ⟨x, hx⟩ := List.exists_mem_of_ne_nil L hne
    have hx1 : 0 < x.length := List.length_pos.2 (hall x hx)
    have hx2 : x.length ≤ totalLen L :=
      List.single_le_sum (fun y _ => Nat.zero_le y) _ (List.mem_map_of_mem _ hx)
    omega
  have hc : 0 < ring.length := by omega
  have hflat : L.flatten.length = totalLen L := by simp [totalLen]
  rw [pushAll_spec L ring buf 0 hall (by omega) hc]
  simp only [List.take_zero, List.nil_append, Nat.zero_add]
  have hring1 : (L.flatten ++ ring.drop (totalLen L)).length = ring.length := by
    simp only [List.length_append, List.length_drop]
    omega
  by_cases hfull : totalLen L = ring.length
  · rw [show totalLen L % ring.length = 0 by rw [hfull, Nat.mod_self]]
    refine ⟨_, rfl, rfl, ?_⟩
    rw [slice_full _ buf (totalLen L) 0 (by rw [hring1, hfull])
      (hbuf.trans hring1.symm) (by omega)]
    have hout : (L.flatten ++ ring.drop (totalLen L)).drop 0 ++
        (L.flatten ++ ring.drop (totalLen L)).take 0 = L.flatten := by
      simp only [List.drop_zero, List.take_zero, List.append_nil]
      rw [hfull, List.drop_length, List.append_nil]
    rw [hout]
    rfl
  · have hlt : totalLen L < ring.length := by omega
    rw [Nat.mod_eq_of_lt hlt]
    refine ⟨_, rfl, rfl, ?_⟩
    rw [slice_lt (L.flatten ++ ring.drop (totalLen L)) buf (totalLen L)
      (hbuf.trans hring1.symm) h0 (by rw [hring1]; omega)]
    rw [List.take_left' hflat]
    rfl

theorem pushes_concat_witness :
    ∃ st1, pushAll (U8RingBuffer.mk [9,9,9] [8,8,8] 0 0) [[1],[2,3]] = some st1 ∧
      st1.len = totalLen [[1],[2,3]] ∧
      (st1.slice).map Prod.fst = some ([[1],[2,3]] : List (List Nat)).flatten :=
  pushes_concat [9,9,9] [8,8,8] [[1],[2,3]] (by decide) (by decide)
    (by decide) (by decide)
